import Mathlib

/-!
Verification of the terminfo %-escape compiler (`src/terminfo/lang/parser.rs`).

The compiler translates capability-string bytes into a flat sequence of
stack-machine instructions with a backpatching scheme for conditionals.
Bytes are modelled as `Nat` (values 0..255 in practice), slices as `List Nat`,
and every fallible or panicking operation is made explicit: `Res` has an
`err` case for the `Result::Err` path, a `panicked` case for Rust panics
(out-of-range slice indexing), and an `outOfFuel` case used only by the
fuel parameter that replaces Rust's unbounded loops/recursion.
-/

namespace Nixterm

/-- Error kinds from `terminfo::errors::ErrorKind` used by the compiler.
The `printfError` case stands for any error propagated unchanged from the
format-directive collaborator (`PrintfArgs::parse`), whose concrete error
values are outside this component. -/
inductive ErrorKind where
  | unexpectedEof
  | invalidArgumentIdentifier
  | invalidNumber
  | invalidChar
  | printfError
deriving DecidableEq

/-- Outcome of a compiler operation: success, a returned error (`Result::Err`),
a Rust panic (out-of-range slice index), or fuel exhaustion (an artifact of
the fuel-indexed embedding of the source's loops; no claim is about it). -/
inductive Res (α : Type) where
  | ok : α → Res α
  | err : ErrorKind → Res α
  | panicked : Res α
  | outOfFuel : Res α
deriving DecidableEq

def Res.bind {α β : Type} : Res α → (α → Res β) → Res β
  | .ok a, f => f a
  | .err e, _ => .err e
  | .panicked, _ => .panicked
  | .outOfFuel, _ => .outOfFuel

/-- Modelled from the spec: the `Argument` literal-value type
(`terminfo::lang::Argument`, not under `src/`) is "a discriminated value that
is either a signed integer or a single character; constructible from each".
Characters are carried as their Unicode scalar value. -/
inductive Argument where
  | int : Int → Argument
  | ch : Nat → Argument
deriving DecidableEq

/-- Conversion characters that terminate a printf-style directive:
`x X c d o s` (the byte set the compiler scans for). -/
def isConvChar (c : Nat) : Bool :=
  c = 120 || c = 88 || c = 99 || c = 100 || c = 111 || c = 115

/-- Modelled from the spec: the format-directive collaborator
(`terminfo::lang::printf::PrintfArgs`, not under `src/`) is "an opaque
structure describing a single printf-style conversion"; the compiler treats
it as a black box. We record the directive's byte span. -/
structure PrintfArgs where
  span : List Nat
deriving DecidableEq

/-- Modelled from the spec: `PrintfArgs::parse` "returns a structured
directive or fails with its own error"; its span runs "up to and including
the first conversion character".  When no conversion character exists the
spec leaves behaviour open but requires any error to propagate; we model
that case as the collaborator's own error. -/
def PrintfArgs.parse (bytes : List Nat) : Res PrintfArgs :=
  if bytes.any (fun c => isConvChar c) then
    .ok ⟨bytes.take ((bytes.takeWhile (fun c => !isConvChar c)).length + 1)⟩
  else
    .err .printfError

/-- The instruction set, mirroring `Op` in `parser.rs`. -/
inductive Op where
  | pushUserArg : Nat → Op
  | push : Argument → Op
  | noOp : Op
  | add : Op
  | sub : Op
  | mul : Op
  | div : Op
  | mod : Op
  | bitAnd : Op
  | bitOr : Op
  | bitXor : Op
  | less : Op
  | greater : Op
  | equal : Op
  | invert : Op
  | not : Op
  | incrementArgs : Op
  | strLen : Op
  | branchTrue : Nat → Op
  | branchFalse : Nat → Op
  | jump : Nat → Op
  | print : PrintfArgs → Op
  | printSlice : List Nat → Op
deriving DecidableEq

/-- The compiler state, mirroring `struct Parser` in `parser.rs`:
`slice` is the remaining unconsumed input, `buffer` the queue of produced
instructions (`VecDeque` as a list: push-back appends, pop-front takes the
head, index assignment is `List.set`). -/
structure Parser where
  slice : List Nat
  buffer : List Op
deriving DecidableEq

/-- `Parser::add_instruction`: push onto the back of the queue. -/
def addInstruction (st : Parser) (op : Op) : Parser :=
  { st with buffer := st.buffer ++ [op] }

/-- `self.slice = &self.slice[read..]`: advancing the cursor panics when
`read` exceeds the slice length (Rust range-slicing is checked). -/
def advance (st : Parser) (read : Nat) : Res Parser :=
  if read ≤ st.slice.length then .ok { st with slice := st.slice.drop read }
  else .panicked

/-- A UTF-8 continuation byte (`0x80..=0xBF`). -/
def utf8Cont (b : Nat) : Bool := 128 ≤ b && b ≤ 191

/-- Strict UTF-8 decoding of one scalar value, exactly as validated by
Rust's `str::from_utf8` (rejecting overlong forms, surrogates, and values
above U+10FFFF). Returns the scalar value and the remaining bytes. -/
def utf8DecodeOne : List Nat → Option (Nat × List Nat)
  | [] => none
  | b0 :: r0 =>
    if b0 ≤ 127 then some (b0, r0)
    else if 194 ≤ b0 && b0 ≤ 223 then
      match r0 with
      | b1 :: r1 =>
        if utf8Cont b1 then some ((b0 - 192) * 64 + (b1 - 128), r1) else none
      | [] => none
    else if 224 ≤ b0 && b0 ≤ 239 then
      match r0 with
      | b1 :: b2 :: r2 =>
        if (((if b0 = 224 then 160 else 128) ≤ b1 && b1 ≤ (if b0 = 237 then 159 else 191))
            && utf8Cont b2) then
          some ((b0 - 224) * 4096 + (b1 - 128) * 64 + (b2 - 128), r2)
        else none
      | _ => none
    else if 240 ≤ b0 && b0 ≤ 244 then
      match r0 with
      | b1 :: b2 :: b3 :: r3 =>
        if (((if b0 = 240 then 144 else 128) ≤ b1 && b1 ≤ (if b0 = 244 then 143 else 191))
            && utf8Cont b2 && utf8Cont b3) then
          some ((b0 - 240) * 262144 + (b1 - 128) * 4096 + (b2 - 128) * 64 + (b3 - 128), r3)
        else none
      | _ => none
    else none

/-- The composite `char::from_str(str::from_utf8(bytes)?)`: succeeds exactly
when `bytes` is the UTF-8 encoding of exactly one character.  Both stages
fail into the same `InvalidChar` error in the source, so the composite is
what the compiler observes. -/
def charFromBytes (l : List Nat) : Option Nat :=
  match utf8DecodeOne l with
  | some (c, []) => some c
  | _ => none

/-- Accumulate base-10 digits; `none` on any non-digit byte. -/
def digitsValAux : List Nat → Nat → Option Nat
  | [], acc => some acc
  | c :: r, acc =>
    if 48 ≤ c ∧ c ≤ 57 then digitsValAux r (acc * 10 + (c - 48)) else none

/-- The digit run of `isize::from_str_radix(_, 10)`: at least one digit,
all bytes `0`..`9`. -/
def digitsVal : List Nat → Option Nat
  | [] => none
  | l => digitsValAux l 0

def isizeMax : Int := 9223372036854775807

def isizeMin : Int := -9223372036854775808

/-- `isize::from_str_radix(s, 10)` on a 64-bit target: optional sign, one or
more decimal digits, checked against the isize range (checked accumulation
in the source is equivalent to a final range check for base 10).  Both the
UTF-8 check and the numeric parse fail into `InvalidNumber` in the source,
and a byte sequence of sign and digits is always valid UTF-8, so this
composite is what the compiler observes. -/
def parseIsize (l : List Nat) : Option Int :=
  match l with
  | 43 :: r =>
    (digitsVal r).bind fun n => if (n : Int) ≤ isizeMax then some (n : Int) else none
  | 45 :: r =>
    (digitsVal r).bind fun n => if isizeMin ≤ -(n : Int) then some (-(n : Int)) else none
  | _ =>
    (digitsVal l).bind fun n => if (n : Int) ≤ isizeMax then some (n : Int) else none

/-- The backpatch loop `for j in end_jumps { self.buffer[j] = Op::Jump(self.buffer.len() - j - 1) }`. -/
def patchJumps (buf : List Op) (js : List Nat) : List Op :=
  js.foldl (fun b j => b.set j (.jump (b.length - j - 1))) buf

mutual

/-- `Parser::next_instruction`: one compilation step.  Mirrors the source
line by line; `advance` models the final checked cursor move
`self.slice = &self.slice[read..]`. -/
def nextInstruction : Nat → Parser → Res Parser
  | 0, _ => .outOfFuel
  | fuel + 1, st =>
    match st.slice with
    | [] => .ok st
    | b0 :: rest =>
      if b0 ≠ 37 then
        let pos := ((b0 :: rest).takeWhile (fun c => c ≠ 37)).length
        .ok { slice := (b0 :: rest).drop pos,
              buffer := st.buffer ++ [.printSlice ((b0 :: rest).take pos)] }
      else
        match rest with
        | [] => .err .unexpectedEof
        | sel :: rest2 =>
          if sel = 37 then
            advance (addInstruction st (.printSlice [37])) 2
          else if sel = 112 then
            match rest2 with
            | i :: _ =>
              if 49 ≤ i ∧ i ≤ 57 then
                advance (addInstruction st (.pushUserArg (i - 49))) 3
              else .err .invalidArgumentIdentifier
            | [] => .err .invalidArgumentIdentifier
          else if sel = 123 then
            let numlen := (rest2.takeWhile (fun c => c ≠ 125)).length + 2
            match parseIsize (rest2.take (numlen - 2)) with
            | some n => advance (addInstruction st (.push (.int n))) (numlen + 1)
            | none => .err .invalidNumber
          else if sel = 39 then
            let charlen := (rest2.takeWhile (fun c => c ≠ 39)).length + 2
            match charFromBytes (rest2.take (charlen - 2)) with
            | some c => advance (addInstruction st (.push (.ch c))) (charlen + 1)
            | none => .err .invalidChar
          else if sel = 105 then advance (addInstruction st .incrementArgs) 2
          else if sel = 108 then advance (addInstruction st .strLen) 2
          else if sel = 43 then advance (addInstruction st .add) 2
          else if sel = 45 then advance (addInstruction st .sub) 2
          else if sel = 42 then advance (addInstruction st .mul) 2
          else if sel = 47 then advance (addInstruction st .div) 2
          else if sel = 109 then advance (addInstruction st .mod) 2
          else if sel = 38 then advance (addInstruction st .bitAnd) 2
          else if sel = 94 then advance (addInstruction st .bitXor) 2
          else if sel = 124 then advance (addInstruction st .bitOr) 2
          else if sel = 61 then advance (addInstruction st .equal) 2
          else if sel = 60 then advance (addInstruction st .less) 2
          else if sel = 62 then advance (addInstruction st .greater) 2
          else if sel = 126 then advance (addInstruction st .invert) 2
          else if sel = 33 then advance (addInstruction st .not) 2
          else if sel = 63 then
            (parseUntil fuel [116] { st with slice := rest2 }).bind fun st2 =>
            (condLoop fuel st2 []).bind fun p =>
            advance { p.1 with buffer := patchJumps p.1.buffer p.2 } 2
          else
            (PrintfArgs.parse (sel :: rest2)).bind fun pa =>
            advance (addInstruction st (.print pa))
              (2 + ((sel :: rest2).takeWhile (fun c => !isConvChar c)).length)

/-- `Parser::parse_until` entry: the initial block indexes `slice[0]`
unconditionally (panics on empty input) and `slice[1]` whenever the first
byte is the marker and the stop set is non-empty (panics on a lone
marker); it has no other effect. -/
def parseUntil : Nat → List Nat → Parser → Res Parser
  | 0, _, _ => .outOfFuel
  | fuel + 1, stop, st =>
    match st.slice.get? 0 with
    | none => .panicked
    | some b0 =>
      if b0 = 37 ∧ stop ≠ [] then
        match st.slice.get? 1 with
        | none => .panicked
        | some _ => parseUntilLoop fuel stop st
      else parseUntilLoop fuel stop st

/-- The `while self.slice.len() >= 2` loop of `Parser::parse_until`:
return successfully when the next two bytes are the marker plus a stop
byte, otherwise compile one step and repeat; `UnexpectedEof` when fewer
than two bytes remain. -/
def parseUntilLoop : Nat → List Nat → Parser → Res Parser
  | 0, _, _ => .outOfFuel
  | fuel + 1, stop, st =>
    if 2 ≤ st.slice.length then
      if st.slice.getD 0 0 = 37 ∧ (st.slice.getD 1 0) ∈ stop then .ok st
      else (nextInstruction fuel st).bind (parseUntilLoop fuel stop)
    else .err .unexpectedEof

/-- The `while self.slice.len() > 1 && self.slice[1] == b't'` loop of the
conditional-construct compiler: per iteration, consume `%t`, emit the
branch placeholder, compile the then-body, then either record an end-jump
placeholder and continue after `%e`, or backpatch the branch and stop.
Returns the state plus the accumulated `end_jumps` indices. -/
def condLoop : Nat → Parser → List Nat → Res (Parser × List Nat)
  | 0, _, _ => .outOfFuel
  | fuel + 1, st, ejs =>
    if 1 < st.slice.length ∧ st.slice.getD 1 0 = 116 then
      let st1 : Parser := { st with slice := st.slice.drop 2 }
      let branchIdx := st1.buffer.length
      (parseUntil fuel [101, 59] (addInstruction st1 .noOp)).bind fun st3 =>
      if st3.slice.length < 2 then .err .unexpectedEof
      else if st3.slice.getD 1 0 = 101 then
        let jumpIdx := st3.buffer.length
        let st4 := addInstruction st3 .noOp
        let st5 : Parser :=
          { st4 with buffer := st4.buffer.set branchIdx (.branchFalse (st4.buffer.length - 1 - branchIdx)) }
        (parseUntil fuel [59, 116] { st5 with slice := st5.slice.drop 2 }).bind fun st7 =>
        condLoop fuel st7 (ejs ++ [jumpIdx])
      else
        condLoop fuel
          { st3 with buffer := st3.buffer.set branchIdx (.branchFalse (st3.buffer.length - 1 - branchIdx)) }
          ejs
    else .ok (st, ejs)

end

/-- The `while self.slice.len() > 0` loop of `Parser::parse`. -/
def parseLoop : Nat → Parser → Res Parser
  | 0, _ => .outOfFuel
  | fuel + 1, st =>
    if 0 < st.slice.length then (nextInstruction fuel st).bind (parseLoop fuel)
    else .ok st

/-- `Parser::new` followed by `Parser::parse`: batch compilation of a whole
input, returning the instruction queue. -/
def parse (fuel : Nat) (input : List Nat) : Res (List Op) :=
  (parseLoop fuel { slice := input, buffer := [] }).bind fun st => .ok st.buffer

/-- Instrumented variant of `parseLoop` that additionally records, for each
compilation step, the number of input bytes the step consumed (the cursor
advance, measured as the decrease in remaining-slice length).  Used to
state the byte-accounting property; it runs exactly the same steps as
`parseLoop`. -/
def parseLoopSteps : Nat → Parser → Res (Parser × List Nat)
  | 0, _ => .outOfFuel
  | fuel + 1, st =>
    if 0 < st.slice.length then
      (nextInstruction fuel st).bind fun st' =>
      (parseLoopSteps fuel st').bind fun pr =>
      .ok (pr.1, (st.slice.length - st'.slice.length) :: pr.2)
    else .ok (st, [])

/-- Result of one pull on the iterator (`<Parser as Iterator>::next`):
an instruction plus the successor state, end of sequence, or a surfaced
error/panic. -/
inductive IterStep where
  | yield : Op → Parser → IterStep
  | done : IterStep
  | fail : ErrorKind → IterStep
  | panicked : IterStep
  | outOfFuel : IterStep
deriving DecidableEq

/-- `<Parser as Iterator>::next`: pop the queue if non-empty, otherwise run
one compilation step and pop; `done` when the step enqueued nothing. -/
def iterNext (fuel : Nat) (st : Parser) : IterStep :=
  match st.buffer with
  | op :: rest => .yield op { st with buffer := rest }
  | [] =>
    match nextInstruction fuel st with
    | .ok st' =>
      match st'.buffer with
      | op :: rest => .yield op { st' with buffer := rest }
      | [] => .done
    | .err e => .fail e
    | .panicked => .panicked
    | .outOfFuel => .outOfFuel

/-! ## Helper lemmas -/

theorem Res.bind_ok {α β : Type} {r : Res α} {f : α → Res β} {b : β}
    (h : r.bind f = .ok b) : ∃ a, r = .ok a ∧ f a = .ok b := by
  cases r with
  | ok a => exact ⟨a, rfl, h⟩
  | err e => cases h
  | panicked => cases h
  | outOfFuel => cases h

@[simp]
theorem addInstruction_slice (st : Parser) (op : Op) :
    (addInstruction st op).slice = st.slice := rfl

@[simp]
theorem addInstruction_buffer (st : Parser) (op : Op) :
    (addInstruction st op).buffer = st.buffer ++ [op] := rfl

theorem advance_ok {st : Parser} {k : Nat} {st' : Parser}
    (h : advance st k = .ok st') :
    k ≤ st.slice.length ∧ st' = { st with slice := st.slice.drop k } := by
  unfold advance at h
  split at h
  · exact ⟨by assumption, by cases h; rfl⟩
  · cases h

/-- Every successful compiler operation only consumes input: the remaining
slice never grows (mutual over all four fueled functions). -/
theorem slice_length_mono : ∀ fuel : Nat,
    (∀ st st', nextInstruction fuel st = .ok st' →
      st'.slice.length ≤ st.slice.length) ∧
    (∀ stop st st', parseUntil fuel stop st = .ok st' →
      st'.slice.length ≤ st.slice.length) ∧
    (∀ stop st st', parseUntilLoop fuel stop st = .ok st' →
      st'.slice.length ≤ st.slice.length) ∧
    (∀ st ejs st' ejs', condLoop fuel st ejs = .ok (st', ejs') →
      st'.slice.length ≤ st.slice.length) := by
  intro fuel
  induction fuel with
  | zero =>
    exact ⟨fun st st' h => by simp [nextInstruction] at h,
           fun stop st st' h => by simp [parseUntil] at h,
           fun stop st st' h => by simp [parseUntilLoop] at h,
           fun st ejs st' ejs' h => by simp [condLoop] at h⟩
  | succ fuel ih =>
    obtain ⟨ihN, ihU, ihL, ihC⟩ := ih
    refine ⟨?_, ?_, ?_, ?_⟩
    · intro st st' h
      rw [nextInstruction] at h
      rcases hs : st.slice with _ | ⟨b0, rest⟩ <;> rw [hs] at h <;> dsimp only at h
      · cases h; simp [hs]
      · by_cases hb : b0 ≠ 37
        · rw [if_pos hb] at h
          cases h; simp [hs]
        · rw [if_neg hb] at h
          rcases hr : rest with _ | ⟨sel, rest2⟩ <;> rw [hr] at h <;> dsimp only at h
          · cases h
          · by_cases h1 : sel = 37
            · rw [if_pos h1] at h
              obtain ⟨hk, rfl⟩ := advance_ok h
              simp only [addInstruction_slice, List.length_drop, hs, hr, List.length_cons]
              omega
            · rw [if_neg h1] at h
              by_cases h2 : sel = 112
              · rw [if_pos h2] at h
                rcases rest2 with _ | ⟨i, rest3⟩ <;> dsimp only at h
                · cases h
                · by_cases hd : 49 ≤ i ∧ i ≤ 57
                  · rw [if_pos hd] at h
                    obtain ⟨hk, rfl⟩ := advance_ok h
                    simp only [addInstruction_slice, List.length_drop, hs, hr, List.length_cons]
                    omega
                  · rw [if_neg hd] at h; cases h
              · rw [if_neg h2] at h
                by_cases h3 : sel = 123
                · rw [if_pos h3] at h
                  rcases hp : parseIsize (rest2.take
                      ((rest2.takeWhile (fun c => c ≠ 125)).length + 2 - 2))
                    with _ | n <;> rw [hp] at h <;> dsimp only at h
                  · cases h
                  · obtain ⟨hk, rfl⟩ := advance_ok h
                    simp only [addInstruction_slice, List.length_drop, hs, hr, List.length_cons]
                    omega
                · rw [if_neg h3] at h
                  by_cases h4 : sel = 39
                  · rw [if_pos h4] at h
                    rcases hp : charFromBytes (rest2.take
                        ((rest2.takeWhile (fun c => c ≠ 39)).length + 2 - 2))
                      with _ | c <;> rw [hp] at h <;> dsimp only at h
                    · cases h
                    · obtain ⟨hk, rfl⟩ := advance_ok h
                      simp only [addInstruction_slice, List.length_drop, hs, hr, List.length_cons]
                      omega
                  · rw [if_neg h4] at h
                    by_cases h5 : sel = 105
                    · rw [if_pos h5] at h
                      obtain ⟨hk, rfl⟩ := advance_ok h
                      simp only [addInstruction_slice, List.length_drop, hs, hr, List.length_cons]
                      omega
                    · rw [if_neg h5] at h
                      by_cases h6 : sel = 108
                      · rw [if_pos h6] at h
                        obtain ⟨hk, rfl⟩ := advance_ok h
                        simp only [addInstruction_slice, List.length_drop, hs, hr, List.length_cons]
                        omega
                      · rw [if_neg h6] at h
                        by_cases h7 : sel = 43
                        · rw [if_pos h7] at h
                          obtain ⟨hk, rfl⟩ := advance_ok h
                          simp only [addInstruction_slice, List.length_drop, hs, hr, List.length_cons]
                          omega
                        · rw [if_neg h7] at h
                          by_cases h8 : sel = 45
                          · rw [if_pos h8] at h
                            obtain ⟨hk, rfl⟩ := advance_ok h
                            simp only [addInstruction_slice, List.length_drop, hs, hr, List.length_cons]
                            omega
                          · rw [if_neg h8] at h
                            by_cases h9 : sel = 42
                            · rw [if_pos h9] at h
                              obtain ⟨hk, rfl⟩ := advance_ok h
                              simp only [addInstruction_slice, List.length_drop, hs, hr, List.length_cons]
                              omega
                            · rw [if_neg h9] at h
                              by_cases h10 : sel = 47
                              · rw [if_pos h10] at h
                                obtain ⟨hk, rfl⟩ := advance_ok h
                                simp only [addInstruction_slice, List.length_drop, hs, hr, List.length_cons]
                                omega
                              · rw [if_neg h10] at h
                                by_cases h11 : sel = 109
                                · rw [if_pos h11] at h
                                  obtain ⟨hk, rfl⟩ := advance_ok h
                                  simp only [addInstruction_slice, List.length_drop, hs, hr, List.length_cons]
                                  omega
                                · rw [if_neg h11] at h
                                  by_cases h12 : sel = 38
                                  · rw [if_pos h12] at h
                                    obtain ⟨hk, rfl⟩ := advance_ok h
                                    simp only [addInstruction_slice, List.length_drop, hs, hr, List.length_cons]
                                    omega
                                  · rw [if_neg h12] at h
                                    by_cases h13 : sel = 94
                                    · rw [if_pos h13] at h
                                      obtain ⟨hk, rfl⟩ := advance_ok h
                                      simp only [addInstruction_slice, List.length_drop, hs, hr, List.length_cons]
                                      omega
                                    · rw [if_neg h13] at h
                                      by_cases h14 : sel = 124
                                      · rw [if_pos h14] at h
                                        obtain ⟨hk, rfl⟩ := advance_ok h
                                        simp only [addInstruction_slice, List.length_drop, hs, hr, List.length_cons]
                                        omega
                                      · rw [if_neg h14] at h
                                        by_cases h15 : sel = 61
                                        · rw [if_pos h15] at h
                                          obtain ⟨hk, rfl⟩ := advance_ok h
                                          simp only [addInstruction_slice, List.length_drop, hs, hr, List.length_cons]
                                          omega
                                        · rw [if_neg h15] at h
                                          by_cases h16 : sel = 60
                                          · rw [if_pos h16] at h
                                            obtain ⟨hk, rfl⟩ := advance_ok h
                                            simp only [addInstruction_slice, List.length_drop, hs, hr, List.length_cons]
                                            omega
                                          · rw [if_neg h16] at h
                                            by_cases h17 : sel = 62
                                            · rw [if_pos h17] at h
                                              obtain ⟨hk, rfl⟩ := advance_ok h
                                              simp only [addInstruction_slice, List.length_drop, hs, hr, List.length_cons]
                                              omega
                                            · rw [if_neg h17] at h
                                              by_cases h18 : sel = 126
                                              · rw [if_pos h18] at h
                                                obtain ⟨hk, rfl⟩ := advance_ok h
                                                simp only [addInstruction_slice, List.length_drop, hs, hr, List.length_cons]
                                                omega
                                              · rw [if_neg h18] at h
                                                by_cases h19 : sel = 33
                                                · rw [if_pos h19] at h
                                                  obtain ⟨hk, rfl⟩ := advance_ok h
                                                  simp only [addInstruction_slice, List.length_drop, hs, hr, List.length_cons]
                                                  omega
                                                · rw [if_neg h19] at h
                                                  by_cases h20 : sel = 63
                                                  · rw [if_pos h20] at h
                                                    obtain ⟨st2, hc1, hc2⟩ := Res.bind_ok h
                                                    obtain ⟨⟨st3, ejs⟩, hc3, hc4⟩ := Res.bind_ok hc2
                                                    obtain ⟨hk, rfl⟩ := advance_ok hc4
                                                    have e1 := ihU _ _ _ hc1
                                                    have e2 := ihC _ _ _ _ hc3
                                                    dsimp only at e1 e2 ⊢
                                                    simp only [List.length_drop, List.length_cons]
                                                      at e1 e2 ⊢
                                                    omega
                                                  · rw [if_neg h20] at h
                                                    obtain ⟨pa, hc1, hc2⟩ := Res.bind_ok h
                                                    obtain ⟨hk, rfl⟩ := advance_ok hc2
                                                    simp only [addInstruction_slice, List.length_drop, hs, hr, List.length_cons]
                                                    omega
    · intro stop st st' h
      simp only [parseUntil] at h
      split at h
      · cases h
      · split at h
        · split at h
          · cases h
          · exact ihL _ _ _ h
        · exact ihL _ _ _ h
    · intro stop st st' h
      simp only [parseUntilLoop] at h
      split at h
      · split at h
        · cases h; omega
        · obtain ⟨st1, h1, h2⟩ := Res.bind_ok h
          have := ihN _ _ h1
          have := ihL _ _ _ h2
          omega
      · cases h
    · intro st ejs st' ejs' h
      simp only [condLoop] at h
      split at h
      · obtain ⟨st3, h1, h2⟩ := Res.bind_ok h
        have e1 := ihU _ _ _ h1
        split at h2
        · cases h2
        · split at h2
          · obtain ⟨st7, h3, h4⟩ := Res.bind_ok h2
            have e2 := ihU _ _ _ h3
            have e3 := ihC _ _ _ _ h4
            simp only [addInstruction_slice, List.length_drop] at e1 e2 e3 ⊢
            omega
          · have e3 := ihC _ _ _ _ h2
            simp only [addInstruction_slice, List.length_drop] at e1 e3 ⊢
            omega
      · cases h; omega

theorem set_append_cons {α : Type} (B : List α) (x v : α) (t : List α) :
    (B ++ x :: t).set B.length v = B ++ v :: t := by
  induction B with
  | nil => rfl
  | cons b B ih => simp [ih]

theorem patchJumps_cons (buf : List Op) (j : Nat) (js : List Nat) :
    patchJumps buf (j :: js) =
      patchJumps (buf.set j (.jump (buf.length - j - 1))) js := rfl

theorem patchJumps_length (js : List Nat) (buf : List Op) :
    (patchJumps buf js).length = buf.length := by
  induction js generalizing buf with
  | nil => rfl
  | cons j js ih => rw [patchJumps_cons, ih, List.length_set]

theorem patchJumps_getElem?_not_mem (js : List Nat) (buf : List Op) (i : Nat)
    (h : i ∉ js) : (patchJumps buf js)[i]? = buf[i]? := by
  induction js generalizing buf with
  | nil => rfl
  | cons j js ih =>
    rw [patchJumps_cons, ih _ (fun hm => h (List.mem_cons_of_mem _ hm))]
    refine List.getElem?_set_ne fun hj => h ?_
    rw [hj]
    exact List.mem_cons_self _ _

theorem patchJumps_getElem?_mem (js : List Nat) (buf : List Op) (i : Nat)
    (hm : i ∈ js) (hlt : i < buf.length) :
    ∃ k, (patchJumps buf js)[i]? = some (Op.jump k) := by
  induction js generalizing buf with
  | nil => cases hm
  | cons j js ih =>
    rw [patchJumps_cons]
    by_cases hij : i ∈ js
    · exact ih _ hij (by rw [List.length_set]; exact hlt)
    · have hji : i = j := by
        rcases List.mem_cons.mp hm with h | h
        · exact h
        · exact absurd h hij
      subst hji
      rw [patchJumps_getElem?_not_mem js _ i hij]
      refine ⟨buf.length - i - 1, ?_⟩
      rw [List.getElem?_set]
      simp [hlt]

/-- After the final jump-backpatch pass of a conditional construct, the
queue is the untouched original prefix `B` plus an extension free of
placeholder no-ops: every no-op left in the extension region was recorded
in the pending-jump list, and patching turns each of those into a jump. -/
theorem patch_extend {B : List Op} {st2buf st3buf : List Op} {news : List Nat}
    (ht0 : ∃ t0, st2buf = B ++ t0 ∧ Op.noOp ∉ t0)
    (hb1 : ∃ t1, st3buf = st2buf ++ t1)
    (hbounds : ∀ j ∈ news, st2buf.length ≤ j ∧ j < st3buf.length)
    (hnoop : ∀ i, st2buf.length ≤ i → st3buf[i]? = some Op.noOp → i ∈ news) :
    ∃ t, patchJumps st3buf news = B ++ t ∧ Op.noOp ∉ t := by
  obtain ⟨t0, ht0e, hn0⟩ := ht0
  obtain ⟨t1, hb1e⟩ := hb1
  have hPlen : (patchJumps st3buf news).length = st3buf.length :=
    patchJumps_length news st3buf
  have hBle : B.length ≤ st2buf.length := by rw [ht0e]; simp
  have hb2 : st2buf.length ≤ st3buf.length := by rw [hb1e]; simp
  have hpre : ∀ i, i < B.length → (patchJumps st3buf news)[i]? = B[i]? := by
    intro i hi
    have hnotin : i ∉ news := by
      intro hin
      have := (hbounds i hin).1
      omega
    rw [patchJumps_getElem?_not_mem news _ i hnotin, hb1e, ht0e,
      List.append_assoc, List.getElem?_append_left hi]
  refine ⟨(patchJumps st3buf news).drop B.length, ?_, ?_⟩
  · have htake : (patchJumps st3buf news).take B.length = B := by
      apply List.ext_getElem?
      intro n
      rw [List.getElem?_take]
      by_cases hn : n < B.length
      · rw [if_pos hn, hpre n hn]
      · rw [if_neg hn]
        exact (List.getElem?_eq_none (by omega)).symm
    conv_lhs => rw [← List.take_append_drop B.length (patchJumps st3buf news)]
    rw [htake]
  · intro hmem
    obtain ⟨m, hm⟩ := List.mem_iff_getElem?.mp hmem
    rw [List.getElem?_drop] at hm
    have hjlt : B.length + m < (patchJumps st3buf news).length := by
      by_contra hge
      rw [List.getElem?_eq_none (by omega)] at hm
      cases hm
    by_cases hin : B.length + m ∈ news
    · obtain ⟨k, hk⟩ := patchJumps_getElem?_mem news st3buf _ hin (by omega)
      rw [hm] at hk
      cases hk
    · rw [patchJumps_getElem?_not_mem news _ _ hin] at hm
      by_cases hj2 : st2buf.length ≤ B.length + m
      · exact hin (hnoop _ hj2 hm)
      · rw [hb1e, List.getElem?_append_left (by omega), ht0e,
          List.getElem?_append_right (by omega)] at hm
        exact hn0 (List.mem_iff_getElem?.mpr ⟨_, hm⟩)

/-- The backpatching invariant, mutually over the four fueled functions:
a successful compilation step only appends to the instruction queue — the
existing prefix is never modified — and the appended instructions contain
no placeholder no-op.  For the conditional loop, which is mid-construct,
the appended region may still hold placeholder no-ops, but each of their
indices is recorded in the returned pending-jump list (all of which lie in
the appended region), so the final jump-backpatch pass eliminates them. -/
theorem buffer_extend : ∀ fuel : Nat,
    (∀ st st', nextInstruction fuel st = .ok st' →
      ∃ t, st'.buffer = st.buffer ++ t ∧ Op.noOp ∉ t) ∧
    (∀ stop st st', parseUntil fuel stop st = .ok st' →
      ∃ t, st'.buffer = st.buffer ++ t ∧ Op.noOp ∉ t) ∧
    (∀ stop st st', parseUntilLoop fuel stop st = .ok st' →
      ∃ t, st'.buffer = st.buffer ++ t ∧ Op.noOp ∉ t) ∧
    (∀ st ejs st' ejs', condLoop fuel st ejs = .ok (st', ejs') →
      ∃ news t, ejs' = ejs ++ news ∧ st'.buffer = st.buffer ++ t ∧
        (∀ j ∈ news, st.buffer.length ≤ j ∧ j < st'.buffer.length) ∧
        (∀ i, st.buffer.length ≤ i → st'.buffer[i]? = some Op.noOp → i ∈ news)) := by
  intro fuel
  induction fuel with
  | zero =>
    exact ⟨fun st st' h => by simp [nextInstruction] at h,
           fun stop st st' h => by simp [parseUntil] at h,
           fun stop st st' h => by simp [parseUntilLoop] at h,
           fun st ejs st' ejs' h => by simp [condLoop] at h⟩
  | succ fuel ih =>
    obtain ⟨ihN, ihU, ihL, ihC⟩ := ih
    refine ⟨?_, ?_, ?_, ?_⟩
    · intro st st' h
      rw [nextInstruction] at h
      rcases hs : st.slice with _ | ⟨b0, rest⟩ <;> rw [hs] at h <;> dsimp only at h
      · cases h
        exact ⟨[], by simp, by simp⟩
      · by_cases hb : b0 ≠ 37
        · rw [if_pos hb] at h
          cases h
          exact ⟨_, rfl, by simp⟩
        · rw [if_neg hb] at h
          rcases hr : rest with _ | ⟨sel, rest2⟩ <;> rw [hr] at h <;> dsimp only at h
          · cases h
          · by_cases h1 : sel = 37
            · rw [if_pos h1] at h
              obtain ⟨hk, rfl⟩ := advance_ok h
              exact ⟨_, rfl, by simp⟩
            · rw [if_neg h1] at h
              by_cases h2 : sel = 112
              · rw [if_pos h2] at h
                rcases rest2 with _ | ⟨i, rest3⟩ <;> dsimp only at h
                · cases h
                · by_cases hd : 49 ≤ i ∧ i ≤ 57
                  · rw [if_pos hd] at h
                    obtain ⟨hk, rfl⟩ := advance_ok h
                    exact ⟨_, rfl, by simp⟩
                  · rw [if_neg hd] at h; cases h
              · rw [if_neg h2] at h
                by_cases h3 : sel = 123
                · rw [if_pos h3] at h
                  rcases hp : parseIsize (rest2.take
                      ((rest2.takeWhile (fun c => c ≠ 125)).length + 2 - 2))
                    with _ | n <;> rw [hp] at h <;> dsimp only at h
                  · cases h
                  · obtain ⟨hk, rfl⟩ := advance_ok h
                    exact ⟨_, rfl, by simp⟩
                · rw [if_neg h3] at h
                  by_cases h4 : sel = 39
                  · rw [if_pos h4] at h
                    rcases hp : charFromBytes (rest2.take
                        ((rest2.takeWhile (fun c => c ≠ 39)).length + 2 - 2))
                      with _ | c <;> rw [hp] at h <;> dsimp only at h
                    · cases h
                    · obtain ⟨hk, rfl⟩ := advance_ok h
                      exact ⟨_, rfl, by simp⟩
                  · rw [if_neg h4] at h
                    by_cases h5 : sel = 105
                    · rw [if_pos h5] at h
                      obtain ⟨hk, rfl⟩ := advance_ok h
                      exact ⟨_, rfl, by simp⟩
                    · rw [if_neg h5] at h
                      by_cases h6 : sel = 108
                      · rw [if_pos h6] at h
                        obtain ⟨hk, rfl⟩ := advance_ok h
                        exact ⟨_, rfl, by simp⟩
                      · rw [if_neg h6] at h
                        by_cases h7 : sel = 43
                        · rw [if_pos h7] at h
                          obtain ⟨hk, rfl⟩ := advance_ok h
                          exact ⟨_, rfl, by simp⟩
                        · rw [if_neg h7] at h
                          by_cases h8 : sel = 45
                          · rw [if_pos h8] at h
                            obtain ⟨hk, rfl⟩ := advance_ok h
                            exact ⟨_, rfl, by simp⟩
                          · rw [if_neg h8] at h
                            by_cases h9 : sel = 42
                            · rw [if_pos h9] at h
                              obtain ⟨hk, rfl⟩ := advance_ok h
                              exact ⟨_, rfl, by simp⟩
                            · rw [if_neg h9] at h
                              by_cases h10 : sel = 47
                              · rw [if_pos h10] at h
                                obtain ⟨hk, rfl⟩ := advance_ok h
                                exact ⟨_, rfl, by simp⟩
                              · rw [if_neg h10] at h
                                by_cases h11 : sel = 109
                                · rw [if_pos h11] at h
                                  obtain ⟨hk, rfl⟩ := advance_ok h
                                  exact ⟨_, rfl, by simp⟩
                                · rw [if_neg h11] at h
                                  by_cases h12 : sel = 38
                                  · rw [if_pos h12] at h
                                    obtain ⟨hk, rfl⟩ := advance_ok h
                                    exact ⟨_, rfl, by simp⟩
                                  · rw [if_neg h12] at h
                                    by_cases h13 : sel = 94
                                    · rw [if_pos h13] at h
                                      obtain ⟨hk, rfl⟩ := advance_ok h
                                      exact ⟨_, rfl, by simp⟩
                                    · rw [if_neg h13] at h
                                      by_cases h14 : sel = 124
                                      · rw [if_pos h14] at h
                                        obtain ⟨hk, rfl⟩ := advance_ok h
                                        exact ⟨_, rfl, by simp⟩
                                      · rw [if_neg h14] at h
                                        by_cases h15 : sel = 61
                                        · rw [if_pos h15] at h
                                          obtain ⟨hk, rfl⟩ := advance_ok h
                                          exact ⟨_, rfl, by simp⟩
                                        · rw [if_neg h15] at h
                                          by_cases h16 : sel = 60
                                          · rw [if_pos h16] at h
                                            obtain ⟨hk, rfl⟩ := advance_ok h
                                            exact ⟨_, rfl, by simp⟩
                                          · rw [if_neg h16] at h
                                            by_cases h17 : sel = 62
                                            · rw [if_pos h17] at h
                                              obtain ⟨hk, rfl⟩ := advance_ok h
                                              exact ⟨_, rfl, by simp⟩
                                            · rw [if_neg h17] at h
                                              by_cases h18 : sel = 126
                                              · rw [if_pos h18] at h
                                                obtain ⟨hk, rfl⟩ := advance_ok h
                                                exact ⟨_, rfl, by simp⟩
                                              · rw [if_neg h18] at h
                                                by_cases h19 : sel = 33
                                                · rw [if_pos h19] at h
                                                  obtain ⟨hk, rfl⟩ := advance_ok h
                                                  exact ⟨_, rfl, by simp⟩
                                                · rw [if_neg h19] at h
                                                  by_cases h20 : sel = 63
                                                  · rw [if_pos h20] at h
                                                    obtain ⟨st2, hc1, hc2⟩ := Res.bind_ok h
                                                    obtain ⟨⟨st3, ejs⟩, hc3, hc4⟩ :=
                                                      Res.bind_ok hc2
                                                    obtain ⟨hk, rfl⟩ := advance_ok hc4
                                                    obtain ⟨t0, ht0, hn0⟩ := ihU _ _ _ hc1
                                                    obtain ⟨news, t1x, hejs, hb1, hbounds, hnoop⟩ :=
                                                      ihC _ _ _ _ hc3
                                                    have hejs' : ejs = news := by simpa using hejs
                                                    subst hejs'
                                                    dsimp only
                                                    exact patch_extend ⟨t0, ht0, hn0⟩ ⟨t1x, hb1⟩
                                                      hbounds hnoop
                                                  · rw [if_neg h20] at h
                                                    obtain ⟨pa, hc1, hc2⟩ := Res.bind_ok h
                                                    obtain ⟨hk, rfl⟩ := advance_ok hc2
                                                    exact ⟨_, rfl, by simp⟩
    · intro stop st st' h
      simp only [parseUntil] at h
      split at h
      · cases h
      · split at h
        · split at h
          · cases h
          · exact ihL _ _ _ h
        · exact ihL _ _ _ h
    · intro stop st st' h
      simp only [parseUntilLoop] at h
      split at h
      · split at h
        · cases h
          exact ⟨[], by simp, by simp⟩
        · obtain ⟨st1, h1, h2⟩ := Res.bind_ok h
          obtain ⟨ta, ha, hna⟩ := ihN _ _ h1
          obtain ⟨tb, hb, hnb⟩ := ihL _ _ _ h2
          refine ⟨ta ++ tb, ?_, ?_⟩
          · rw [hb, ha, List.append_assoc]
          · intro hx
            rcases List.mem_append.mp hx with hx | hx
            · exact hna hx
            · exact hnb hx
      · cases h
    · intro st ejs st' ejs' h
      simp only [condLoop] at h
      split at h
      · obtain ⟨st3, h1, h2⟩ := Res.bind_ok h
        obtain ⟨t1, hb3, hn1⟩ := ihU _ _ _ h1
        rw [addInstruction_buffer] at hb3
        dsimp only at hb3
        have hb4 : st3.buffer = st.buffer ++ Op.noOp :: t1 := by
          rw [hb3]; simp
        have L3 : st3.buffer.length = st.buffer.length + 1 + t1.length := by
          rw [hb4]; simp [List.length_append]; omega
        split at h2
        · cases h2
        · split at h2
          · -- else-if / else marker: record an end jump and continue
            obtain ⟨st7, h3, h4⟩ := Res.bind_ok h2
            obtain ⟨t2, hb7, hn2⟩ := ihU _ _ _ h3
            dsimp only at hb7
            rw [addInstruction_buffer, hb4] at hb7
            have hb4' : st.buffer ++ Op.noOp :: t1 ++ [Op.noOp] =
                st.buffer ++ Op.noOp :: (t1 ++ [Op.noOp]) := by simp
            rw [hb4', set_append_cons] at hb7
            obtain ⟨K, hb7'⟩ : ∃ K, st7.buffer =
                (st.buffer ++ Op.branchFalse K :: (t1 ++ [Op.noOp])) ++ t2 := ⟨_, hb7⟩
            obtain ⟨news3, t3, hejs3, hbf, hbounds3, hnoop3⟩ := ihC _ _ _ _ h4
            have L7 : st7.buffer.length =
                st.buffer.length + t1.length + t2.length + 2 := by
              rw [hb7']; simp [List.length_append]; omega
            have Lf : st'.buffer.length = st7.buffer.length + t3.length := by
              rw [hbf]; simp [List.length_append]
            refine ⟨st3.buffer.length :: news3,
              Op.branchFalse K :: ((t1 ++ [Op.noOp]) ++ (t2 ++ t3)), ?_, ?_, ?_, ?_⟩
            · rw [hejs3]; simp
            · rw [hbf, hb7']; simp
            · intro j hj
              rcases List.mem_cons.mp hj with hj | hj
              · subst hj; omega
              · have := hbounds3 j hj
                omega
            · intro i hi hx
              by_cases hge : st7.buffer.length ≤ i
              · exact List.mem_cons_of_mem _ (hnoop3 i hge hx)
              · rw [hbf, List.getElem?_append_left (by omega), hb7'] at hx
                by_cases hge5 :
                    (st.buffer ++ Op.branchFalse K :: (t1 ++ [Op.noOp])).length ≤ i
                · rw [List.getElem?_append_right hge5] at hx
                  exact absurd (List.mem_iff_getElem?.mpr ⟨_, hx⟩) hn2
                · rw [List.getElem?_append_left (by omega),
                    List.getElem?_append_right hi] at hx
                  rcases hdm : i - st.buffer.length with _ | m
                  · rw [hdm, List.getElem?_cons_zero] at hx
                    simp at hx
                  · rw [hdm, List.getElem?_cons_succ] at hx
                    by_cases hm1 : m < t1.length
                    · rw [List.getElem?_append_left hm1] at hx
                      exact absurd (List.mem_iff_getElem?.mpr ⟨_, hx⟩) hn1
                    · rw [List.getElem?_append_right (by omega)] at hx
                      have hm0 : m - t1.length = 0 := by
                        by_contra h0
                        rw [List.getElem?_eq_none
                          (by simp only [List.length_singleton]; omega)] at hx
                        cases hx
                      have : i = st3.buffer.length := by omega
                      rw [this]
                      exact List.mem_cons_self _ _
          · -- end-if marker: backpatch the branch and leave the loop
            obtain ⟨news3, t3, hejs3, hbf, hbounds3, hnoop3⟩ := ihC _ _ _ _ h2
            dsimp only at hbf hbounds3 hnoop3
            rw [hb4, set_append_cons] at hbf hbounds3 hnoop3
            obtain ⟨K, hbf'⟩ : ∃ K, st'.buffer =
                (st.buffer ++ Op.branchFalse K :: t1) ++ t3 := ⟨_, hbf⟩
            have Lset : (st.buffer ++ Op.branchFalse K :: t1).length =
                st.buffer.length + 1 + t1.length := by
              simp [List.length_append]; omega
            have Lf : st'.buffer.length =
                st.buffer.length + 1 + t1.length + t3.length := by
              rw [hbf']; simp [List.length_append]; omega
            refine ⟨news3, Op.branchFalse K :: (t1 ++ t3), hejs3, ?_, ?_, ?_⟩
            · rw [hbf']; simp
            · intro j hj
              obtain ⟨hj1, hj2⟩ := hbounds3 j hj
              simp only [List.length_append, List.length_cons] at hj1
              exact ⟨by omega, hj2⟩
            · intro i hi hx
              by_cases hge : st.buffer.length + t1.length + 1 ≤ i
              · refine hnoop3 i ?_ hx
                simp only [List.length_append, List.length_cons]
                omega
              · rw [hbf', List.getElem?_append_left
                    (by simp only [List.length_append, List.length_cons]; omega),
                  List.getElem?_append_right hi] at hx
                rcases hdm : i - st.buffer.length with _ | m
                · rw [hdm, List.getElem?_cons_zero] at hx
                  simp at hx
                · rw [hdm, List.getElem?_cons_succ] at hx
                  exact absurd (List.mem_iff_getElem?.mpr ⟨_, hx⟩) hn1
      · cases h
        refine ⟨[], [], by simp, by simp, by simp, ?_⟩
        intro i hi hx
        rw [List.getElem?_eq_none hi] at hx
        cases hx

/-- A successful run of the instrumented batch loop consumes the whole
remaining input: the recorded per-step consumptions sum to the starting
slice length, and the final slice is empty. -/
theorem parseLoopSteps_sum : ∀ fuel st st' steps,
    parseLoopSteps fuel st = .ok (st', steps) →
    steps.sum = st.slice.length ∧ st'.slice = [] := by
  intro fuel
  induction fuel with
  | zero => intro st st' steps h; simp [parseLoopSteps] at h
  | succ fuel ih =>
    intro st st' steps h
    simp only [parseLoopSteps] at h
    split at h
    · obtain ⟨st1, h1, h2⟩ := Res.bind_ok h
      obtain ⟨⟨pr1, pr2⟩, h3, h4⟩ := Res.bind_ok h2
      cases h4
      obtain ⟨hsum, hnil⟩ := ih _ _ _ h3
      have hm := (slice_length_mono fuel).1 _ _ h1
      refine ⟨?_, hnil⟩
      simp only [List.sum_cons, hsum]
      omega
    · cases h
      have : st.slice.length = 0 := by omega
      exact ⟨this.symm ▸ rfl, List.length_eq_zero.mp this⟩

/-- `parseLoop` and its instrumented variant run the same steps and agree
on the resulting state. -/
theorem parseLoop_eq_steps : ∀ fuel st,
    parseLoop fuel st = (parseLoopSteps fuel st).bind fun pr => .ok pr.1 := by
  intro fuel
  induction fuel with
  | zero => intro st; rfl
  | succ fuel ih =>
    intro st
    simp only [parseLoop, parseLoopSteps]
    split
    · cases hn : nextInstruction fuel st <;> simp only [Res.bind]
      rw [ih]
      cases hp : parseLoopSteps fuel _ <;> simp only [Res.bind]
    · rfl

/-! ## Claim theorems (concrete evaluations) -/

/-- C1: compiling the conditional capability string `%?%{1}%t%{2}%e%{3}%;`
yields exactly [push-literal-value(1), branch-if-false(2),
push-literal-value(2), unconditional-jump(1), push-literal-value(3)], the
offsets being relative instruction counts produced by backpatching. -/
theorem c1_conditional_with_else :
    parse 50 [37, 63, 37, 123, 49, 125, 37, 116, 37, 123, 50, 125, 37, 101,
              37, 123, 51, 125, 37, 59] =
      .ok [.push (.int 1), .branchFalse 2, .push (.int 2), .jump 1, .push (.int 3)] := by
  decide

/-- C5: compiling the minimal conditional `%?%{1}%t%{2}%;` yields exactly
[push-literal-value(1), branch-if-false(1), push-literal-value(2)]; the
branch offset skips exactly the then-branch. -/
theorem c5_minimal_conditional :
    parse 50 [37, 63, 37, 123, 49, 125, 37, 116, 37, 123, 50, 125, 37, 59] =
      .ok [.push (.int 1), .branchFalse 1, .push (.int 2)] := by
  decide

/-- C2 (code bug): the claim says every truncation inside a conditional
fails with `UnexpectedEof`, but the code panics on `%?` (and on `%?%` and on
`%?%{1}%t%{2}%e`) via an out-of-range index in `parse_until`'s initial
block, while a conditional truncated after its then-body does return
`UnexpectedEof`. -/
theorem c2_truncated_conditional :
    parse 10 [37, 63] = Res.panicked ∧
    parse 10 [37, 63, 37] = Res.panicked ∧
    parse 30 [37, 63, 37, 123, 49, 125, 37, 116, 37, 123, 50, 125] =
      .err .unexpectedEof ∧
    parse 30 [37, 63, 37, 123, 49, 125, 37, 116, 37, 123, 50, 125, 37, 101] =
      Res.panicked := by
  decide

/-- C3 (code bug): `%{12}` compiles to push-literal-value(12), and empty or
non-numeric braces fail with `InvalidNumber`, but the unterminated literal
`%{12` panics (the computed cursor advance of 5 bytes overruns the 4-byte
input) instead of failing with `InvalidNumber` as claimed. -/
theorem c3_braced_literal :
    parse 10 [37, 123, 49, 50, 125] = .ok [.push (.int 12)] ∧
    parse 10 [37, 123, 125] = .err .invalidNumber ∧
    parse 10 [37, 123, 97, 98, 125] = .err .invalidNumber ∧
    parse 10 [37, 123, 49, 50] = Res.panicked := by
  decide

/-- C4 counterexample: the two-byte (UTF-8) content `é` in `%'é'` compiles
successfully to push-literal-value('é'), whereas the claim requires every
quoted content that is not exactly one byte to fail with `InvalidChar`. -/
theorem c4_counterexample :
    parse 10 [37, 39, 195, 169, 39] = .ok [.push (.ch 233)] ∧
    (Res.ok [Op.push (Argument.ch 233)] ≠ (.err .invalidChar : Res (List Op))) := by
  decide

/-- C10: empty input batch-compiles successfully to zero instructions, the
first pull on the iterator signals end-of-sequence rather than an error,
and a compilation step at end of input with an empty queue succeeds and
enqueues nothing. -/
theorem c10_empty_input :
    parse 1 [] = .ok [] ∧
    iterNext 1 { slice := [], buffer := [] } = .done ∧
    nextInstruction 1 { slice := [], buffer := [] } = .ok { slice := [], buffer := [] } := by
  decide

/-- C7: on every well-formed input (one on which batch compilation
succeeds) the cursor advance of each compilation step is by construction
the number of bytes that step consumed (`parseLoopSteps` records exactly
the per-step decreases of the remaining slice), and these consumptions sum
to the input length exactly, with the cursor ending at end of input — no
byte skipped and none consumed twice. -/
theorem c7_consumed_exact (fuel : Nat) (input : List Nat) (ops : List Op)
    (h : parse fuel input = .ok ops) :
    ∃ pr : Parser × List Nat,
      parseLoopSteps fuel { slice := input, buffer := [] } = .ok pr ∧
      pr.2.sum = input.length ∧ pr.1.slice = [] ∧ pr.1.buffer = ops := by
  unfold parse at h
  obtain ⟨stf, h1, h2⟩ := Res.bind_ok h
  cases h2
  rw [parseLoop_eq_steps] at h1
  obtain ⟨pr, h3, h4⟩ := Res.bind_ok h1
  cases h4
  obtain ⟨hsum, hnil⟩ := parseLoopSteps_sum fuel _ pr.1 pr.2 (by rw [h3])
  exact ⟨pr, h3, hsum, hnil, rfl⟩

/-- Witness for C7 at the concrete input "hi". -/
theorem c7_consumed_exact_witness :
    ∃ pr : Parser × List Nat,
      parseLoopSteps 3 { slice := [104, 105], buffer := [] } = .ok pr ∧
      pr.2.sum = ([104, 105] : List Nat).length ∧ pr.1.slice = [] ∧
      pr.1.buffer = [Op.printSlice [104, 105]] :=
  c7_consumed_exact 3 [104, 105] [Op.printSlice [104, 105]] (by decide)

/-- C9: after any successful compilation step the instruction queue holds
no placeholder no-op (every placeholder emitted during conditional
compilation was overwritten — to branch-if-false or unconditional-jump —
before the step returned), the instructions already in the queue before
the step are never modified (the old queue stays an unchanged prefix), and
an instruction yielded by the iterator is never a placeholder; once popped
it is out of the queue and cannot be modified afterwards. -/
theorem c9_no_placeholder :
    (∀ fuel st st', Op.noOp ∉ st.buffer → nextInstruction fuel st = .ok st' →
      (∃ t, st'.buffer = st.buffer ++ t) ∧ Op.noOp ∉ st'.buffer) ∧
    (∀ fuel st op st2, Op.noOp ∉ st.buffer → iterNext fuel st = .yield op st2 →
      op ≠ Op.noOp ∧ Op.noOp ∉ st2.buffer) := by
  have main : ∀ fuel st st', Op.noOp ∉ st.buffer → nextInstruction fuel st = .ok st' →
      (∃ t, st'.buffer = st.buffer ++ t) ∧ Op.noOp ∉ st'.buffer := by
    intro fuel st st' hpre hok
    obtain ⟨t, he, hn⟩ := (buffer_extend fuel).1 st st' hok
    refine ⟨⟨t, he⟩, ?_⟩
    rw [he]
    intro hx
    rcases List.mem_append.mp hx with hx | hx
    · exact hpre hx
    · exact hn hx
  refine ⟨main, ?_⟩
  intro fuel st op st2 hpre hy
  unfold iterNext at hy
  rcases hbuf : st.buffer with _ | ⟨op0, rest⟩ <;> rw [hbuf] at hy <;> dsimp only at hy
  · rcases hn : nextInstruction fuel st with st1 | e | _ | _ <;>
      rw [hn] at hy <;> dsimp only at hy
    · obtain ⟨⟨t, he⟩, hclean⟩ := main fuel st st1 hpre hn
      rcases hb1 : st1.buffer with _ | ⟨o1, r1⟩ <;> rw [hb1] at hy <;> dsimp only at hy
      · cases hy
      · cases hy
        constructor
        · intro hop
          subst hop
          exact hclean (by rw [hb1]; exact List.mem_cons_self _ _)
        · intro hx
          exact hclean (by rw [hb1]; exact List.mem_cons_of_mem _ hx)
    · cases hy
    · cases hy
    · cases hy
  · cases hy
    constructor
    · intro hop
      subst hop
      exact hpre (by rw [hbuf]; exact List.mem_cons_self _ _)
    · intro hx
      exact hpre (by rw [hbuf]; exact List.mem_cons_of_mem _ hx)

/-- Witness for C9 at the minimal conditional `%?%{1}%t%{2}%;` compiled
from a fresh state. -/
theorem c9_no_placeholder_witness :
    (∃ t, [Op.push (Argument.int 1), Op.branchFalse 1, Op.push (Argument.int 2)] =
        ([] : List Op) ++ t) ∧
    Op.noOp ∉ [Op.push (Argument.int 1), Op.branchFalse 1, Op.push (Argument.int 2)] :=
  c9_no_placeholder.1 30
    { slice := [37, 63, 37, 123, 49, 125, 37, 116, 37, 123, 50, 125, 37, 59], buffer := [] }
    { slice := [],
      buffer := [Op.push (Argument.int 1), Op.branchFalse 1, Op.push (Argument.int 2)] }
    (by simp) (by decide)

theorem takeWhile_all_append {α : Type} {p : α → Bool} {c : List α}
    (h : ∀ a ∈ c, p a = true) {x : α} (hx : p x = false) (t : List α) :
    (c ++ x :: t).takeWhile p = c := by
  induction c with
  | nil => simp [List.takeWhile_cons, hx]
  | cons a c ih =>
    rw [List.cons_append, List.takeWhile_cons, h a (List.mem_cons_self a c), if_pos rfl,
      ih (fun b hb => h b (List.mem_cons_of_mem a hb))]

/-- C6: every argument-reference escape `%p1`..`%p9` compiles to
push-argument-by-index 0..8 respectively, consuming exactly three bytes
(the new cursor is exactly the remaining input after the digit), while
`%p0`, `%p` followed by any non-digit byte, and `%p` at end of input all
fail with `InvalidArgumentIdentifier`. -/
theorem c6_argument_refs :
    (∀ fuel d rest buf, 49 ≤ d → d ≤ 57 →
      nextInstruction (fuel + 1) { slice := 37 :: 112 :: d :: rest, buffer := buf } =
        .ok { slice := rest, buffer := buf ++ [Op.pushUserArg (d - 49)] }) ∧
    (∀ fuel d rest buf, d < 49 ∨ 57 < d →
      nextInstruction (fuel + 1) { slice := 37 :: 112 :: d :: rest, buffer := buf } =
        .err .invalidArgumentIdentifier) ∧
    (∀ fuel buf, nextInstruction (fuel + 1) { slice := [37, 112], buffer := buf } =
      .err .invalidArgumentIdentifier) := by
  refine ⟨?_, ?_, ?_⟩
  · intro fuel d rest buf h1 h2
    rw [nextInstruction]
    dsimp only
    rw [if_neg (by decide), if_neg (by decide), if_pos rfl, if_pos ⟨h1, h2⟩,
      advance]
    rw [if_pos (by simp only [addInstruction_slice, List.length_cons]; omega)]
    rfl
  · intro fuel d rest buf h1
    rw [nextInstruction]
    dsimp only
    rw [if_neg (by decide), if_neg (by decide), if_pos rfl,
      if_neg (by rintro ⟨ha, hb⟩; omega)]
  · intro fuel buf
    rw [nextInstruction]
    dsimp only
    rw [if_neg (by decide), if_neg (by decide), if_pos rfl]

/-- Witness for C6 at `%p3` followed by "x", at `%p0`, and at `%p` at end
of input. -/
theorem c6_argument_refs_witness :
    nextInstruction 1 { slice := 37 :: 112 :: 51 :: [120], buffer := [] } =
      .ok { slice := [120], buffer := [] ++ [Op.pushUserArg (51 - 49)] } ∧
    nextInstruction 1 { slice := 37 :: 112 :: 48 :: [], buffer := [] } =
      .err .invalidArgumentIdentifier ∧
    nextInstruction 1 { slice := [37, 112], buffer := [] } =
      .err .invalidArgumentIdentifier :=
  ⟨c6_argument_refs.1 0 51 [120] [] (by decide) (by decide),
   c6_argument_refs.2.1 0 48 [] [] (by decide),
   c6_argument_refs.2.2 0 []⟩

/-- C8 counterexample: the empty input contains no escape-marker byte, yet
batch compilation yields zero instructions rather than one
print-literal-bytes instruction. -/
theorem c8_counterexample :
    parse 2 [] = .ok [] ∧ (Res.ok ([] : List Op) ≠ .ok [Op.printSlice []]) := by
  decide

/-- C8 (amended): for every NONEMPTY input containing no escape-marker
byte `%`, batch compilation yields exactly one print-literal-bytes
instruction whose zero-copy span is the entire input, and no other
instruction; on the empty input compilation succeeds with zero
instructions. -/
theorem c8_literal_span_amended (fuel : Nat) (input : List Nat)
    (h1 : input ≠ []) (h2 : 37 ∉ input) :
    parse (fuel + 2) input = .ok [Op.printSlice input] := by
  rcases input with _ | ⟨b0, rest⟩
  · exact absurd rfl h1
  · have hb0 : b0 ≠ 37 := fun hb => h2 (by rw [hb]; exact List.mem_cons_self _ _)
    have htw : (b0 :: rest).takeWhile (fun c => decide (c ≠ 37)) = b0 :: rest :=
      List.takeWhile_eq_self_iff.mpr (fun x hx => by
        rw [decide_eq_true_eq]
        exact fun heq => h2 (heq ▸ hx))
    unfold parse
    rw [parseLoop, if_pos (by simp), nextInstruction]
    dsimp only
    rw [if_pos hb0, htw, List.drop_length, List.take_length]
    show Res.bind (parseLoop (fuel + 1) _) _ = _
    rw [parseLoop, if_neg (by simp)]
    rfl

/-- Witness for C8 (amended) at the concrete input "hi". -/
theorem c8_literal_span_witness :
    parse 2 [104, 105] = .ok [Op.printSlice [104, 105]] :=
  c8_literal_span_amended 0 [104, 105] (by decide) (by decide)

/-- C4 (amended): the quoted character literal `%'A'` compiles to a single
push-literal-value('A').  In general the quoted content is accepted
exactly when it is the UTF-8 encoding of exactly one character (so a
multi-byte encoding of one character succeeds); empty quotes, several
characters, or invalid UTF-8 fail with `InvalidChar`.  An unterminated
literal fails with `InvalidChar` when the remaining bytes are not exactly
one character, but panics (cursor advanced past end of input) when they
are, as in `%'A` at end of input. -/
theorem c4_char_literal_amended :
    (∀ fuel c buf, 39 ∉ c →
      nextInstruction (fuel + 1) { slice := 37 :: 39 :: (c ++ [39]), buffer := buf } =
        (match charFromBytes c with
         | some cp => .ok { slice := [], buffer := buf ++ [Op.push (.ch cp)] }
         | none => .err .invalidChar)) ∧
    parse 10 [37, 39, 65, 39] = .ok [Op.push (.ch 65)] ∧
    parse 10 [37, 39, 39] = .err .invalidChar ∧
    parse 10 [37, 39, 65, 66, 39] = .err .invalidChar ∧
    parse 10 [37, 39, 65] = Res.panicked ∧
    parse 10 [37, 39] = .err .invalidChar := by
  refine ⟨?_, by decide, by decide, by decide, by decide, by decide⟩
  intro fuel c buf hc
  rw [nextInstruction]
  dsimp only
  rw [if_neg (by decide), if_neg (by decide), if_neg (by decide),
    if_neg (by decide), if_pos rfl]
  have htw : (c ++ 39 :: []).takeWhile (fun b => decide (b ≠ 39)) = c :=
    takeWhile_all_append
      (fun a ha => by
        rw [decide_eq_true_eq]
        exact fun heq => hc (heq ▸ ha))
      (by simp) []
  have htk : (c ++ [39]).take (c.length + 2 - 2) = c := by
    rw [Nat.add_sub_cancel]
    exact List.take_left' rfl
  rw [show (c ++ [39] : List Nat) = c ++ 39 :: [] from rfl, htw, htk]
  rcases hch : charFromBytes c with _ | cp <;> dsimp only
  rw [advance, if_pos (by simp [List.length_append])]
  simp only [addInstruction_slice, addInstruction_buffer]
  rw [List.drop_eq_nil_of_le (by simp [List.length_append])]

/-- Witness for C4 (amended) at content "A". -/
theorem c4_char_literal_witness :
    nextInstruction 5 { slice := 37 :: 39 :: ([65] ++ [39]), buffer := [] } =
      .ok { slice := [], buffer := [] ++ [Op.push (.ch 65)] } := by
  rw [c4_char_literal_amended.1 4 [65] [] (by decide)]
  rfl

end Nixterm
